import Mathlib

/-!
Verification of the image-scraping script `scrape_images.py` (the "360
Interiors" variant) against its natural-language specification.

Strings are modelled as `List Char`.  The character classes of the Python
regular expressions (`\w`, `\s`) and of `str.lower` are modelled at ASCII
level, via code-point arithmetic on `Char.toNat`; this matches CPython's
behaviour on ASCII input, which is the domain the script works in.
-/

/-- Model of the Python regex class `\s` (ASCII): space and the control
whitespace characters 9-13. -/
def pySpaceChar (c : Char) : Bool :=
  c.toNat = 32 || (9 ≤ c.toNat && c.toNat ≤ 13)

/-- Model of the Python regex class `\w` (ASCII): digits, upper- and
lower-case letters, and the underscore (code point 95). -/
def pyWordChar (c : Char) : Bool :=
  (48 ≤ c.toNat && c.toNat ≤ 57) || (65 ≤ c.toNat && c.toNat ≤ 90) ||
    (97 ≤ c.toNat && c.toNat ≤ 122) || c.toNat = 95

/-- Characters kept by the first substitution of `clean_filename`
(`re.sub(r"[^\w\s-]", "", name)` keeps exactly `\w`, `\s` and the hyphen,
code point 45). -/
def keepChar (c : Char) : Bool :=
  pyWordChar c || pySpaceChar c || c.toNat = 45

/-- Characters matched by the class `[\s_-]` of the second substitution of
`clean_filename`: whitespace, underscore and hyphen. -/
def dashWsChar (c : Char) : Bool :=
  pySpaceChar c || c.toNat = 95 || c.toNat = 45

/-- Model of Python `str.strip()` (ASCII): drop leading and trailing
whitespace. -/
def pyStrip (l : List Char) : List Char :=
  ((l.dropWhile pySpaceChar).reverse.dropWhile pySpaceChar).reverse

/-- Model of `re.sub(r"[\s_-]+", "-", s)`: every maximal run of
whitespace/underscore/hyphen characters is replaced by a single hyphen. -/
def collapseDashRuns : List Char → List Char
  | [] => []
  | c :: rest =>
    match rest with
    | [] => if dashWsChar c then ['-'] else [c]
    | d :: _ =>
      if dashWsChar c then
        (if dashWsChar d then collapseDashRuns rest else '-' :: collapseDashRuns rest)
      else c :: collapseDashRuns rest

/-- Model of `re.sub(r"\.\.+", ".", s)`: every run of two or more
consecutive periods is replaced by a single period (single periods are
untouched). -/
def collapseDotRuns : List Char → List Char
  | [] => []
  | c :: rest =>
    match rest with
    | [] => [c]
    | d :: _ =>
      if c = '.' && d = '.' then collapseDotRuns rest
      else c :: collapseDotRuns rest

/-- Model of Python `str.lower` restricted to ASCII: code points 65-90 are
shifted up by 32, everything else is unchanged.  (CPython's `str.lower`
acts exactly like this on ASCII strings.) -/
def pyLower (c : Char) : Char :=
  if 65 ≤ c.toNat ∧ c.toNat ≤ 90 then Char.ofNat (c.toNat + 32) else c

/-- Model of `os.path.splitext` (posixpath, scanning the reversed string):
locate the last period of the path; the extension starts there provided no
slash follows it and the final path component does not consist solely of
leading periods up to that point.  Works on the reversed list: returns
`some (extTailRev, rootRev)` when `p.reverse = extTailRev ++ period ++
rootRev` is an extension split, `none` otherwise. -/
def extScanRev : List Char → Option (List Char × List Char)
  | [] => none
  | c :: rest =>
    if c = '.' then
      (if (rest.takeWhile (fun d => d ≠ '/')).any (fun d => d ≠ '.') then
        some ([], rest)
      else none)
    else if c = '/' then none
    else
      match extScanRev rest with
      | some (t, preR) => some (c :: t, preR)
      | none => none

/-- Model of `os.path.splitext(p)`: returns `(root, ext)`. -/
def splitext (p : List Char) : List Char × List Char :=
  match extScanRev p.reverse with
  | some (t, preR) => (preR.reverse, '.' :: t.reverse)
  | none => (p, [])

/-- Name-cleaning pipeline of `clean_filename` as applied to the name part
(everything except the final return's extension reattachment): remove the
characters outside `[\w\s-]`, strip, collapse `[\s_-]+` runs to a hyphen,
collapse period runs, lower-case. -/
def nameClean (l : List Char) : List Char :=
  List.map pyLower (collapseDotRuns (collapseDashRuns (pyStrip (l.filter keepChar))))

/-- Model of `clean_filename` (scrape_images.py lines 16-24): split off the
extension, clean the name part, reattach the extension unchanged. -/
def clean_filename (f : List Char) : List Char :=
  nameClean (splitext f).1 ++ (splitext f).2

/-- Model of the extension computation on scrape_images.py line 128:
`os.path.splitext(src)[1].split("?")[0] or ".jpg"`.  Note the order:
`splitext` runs on the raw reference first, and only afterwards is the
result truncated at the first question mark. -/
def pyExt (src : List Char) : List Char :=
  let e := ((splitext src).2).takeWhile (fun c => c ≠ '?')
  if e = [] then '.' :: ['j', 'p', 'g'] else e

/-- Described-by-the-spec extension computation (spec section 4.2 step 6):
strip the query string from the reference first, then take the extension of
what remains, defaulting to `.jpg`.  Used only to compare against `pyExt`,
which is the code's actual computation. -/
def specDescribedExt (src : List Char) : List Char :=
  let e := (splitext (src.takeWhile (fun c => c ≠ '?'))).2
  if e = [] then '.' :: ['j', 'p', 'g'] else e

/-!
Model of the fetch-or-replace primitive `download_or_replace_image`
(scrape_images.py lines 26-71).  Network and filesystem effects are made
explicit: the pre-existing local file content, the outcome of the HEAD
(metadata) request and the outcome of the GET (content) request are inputs;
the resulting file content, the run log, the number of HEAD/GET requests
issued and whether `os.remove` was called are outputs.  File contents are
byte lists (`List Nat`); transport failures (`aiohttp.ClientError` and the
generic handler) are `Except.error` values carrying the message `str(e)`.
-/

/-- Run log: the four append-only lists of the script's `log_data`
dictionary (downloaded {url, filepath}, skipped {url, reason},
replaced {url, old_size, new_size}, errors {url, error}). -/
structure LogData where
  downloaded : List (List Char × List Char)
  skipped : List (List Char × List Char)
  replaced : List (List Char × Nat × Nat)
  errors : List (List Char × List Char)
deriving DecidableEq

/-- Empty run log, as initialised in `scrape_from_sitemap` (line 220). -/
def emptyLog : LogData := ⟨[], [], [], []⟩

/-- Append an entry to the errors list (`log_data["errors"].append`). -/
def addErr (log : LogData) (u e : List Char) : LogData :=
  { log with errors := log.errors ++ [(u, e)] }

/-- Append an entry to the skipped list. -/
def addSkip (log : LogData) (u r : List Char) : LogData :=
  { log with skipped := log.skipped ++ [(u, r)] }

/-- Append an entry to the replaced list. -/
def addRepl (log : LogData) (u : List Char) (oldSize newSize : Nat) : LogData :=
  { log with replaced := log.replaced ++ [(u, oldSize, newSize)] }

/-- Append an entry to the downloaded list. -/
def addDl (log : LogData) (u fp : List Char) : LogData :=
  { log with downloaded := log.downloaded ++ [(u, fp)] }

/-- Skip reason written on line 45. -/
def skipReasonCorrectSize : List Char := "already exists and correct size".toList

deriving instance DecidableEq for Except

/-- Environment of one fetch-or-replace invocation: the local file at the
target path (if any), the HEAD outcome (on success, the optional
`Content-Length` header value) and the GET outcome (on success, the body). -/
structure FetchEnv where
  localFile : Option (List Nat)
  headResult : Except (List Char) (Option Nat)
  getResult : Except (List Char) (List Nat)
deriving DecidableEq

/-- Result of one fetch-or-replace invocation. -/
structure DlResult where
  file : Option (List Nat)
  log : LogData
  headRequests : Nat
  getRequests : Nat
  removed : Bool
deriving DecidableEq

/-- Model of `download_or_replace_image` (lines 26-71).  If a local file
exists, a HEAD request reads the remote declared size (`Content-Length`,
defaulting to 0 when the header is absent, line 40); equal sizes skip, with
no GET; differing sizes append a replaced entry, delete the file and fall
through to the GET.  Without a local file the GET happens directly, with no
HEAD.  A transport failure of either request is caught and appended to
errors; a successful GET writes the body and appends a downloaded entry. -/
def download_or_replace_image (imageUrl localFilepath : List Char)
    (env : FetchEnv) (log : LogData) : DlResult :=
  match env.localFile with
  | some content =>
    match env.headResult with
    | Except.error e => ⟨some content, addErr log imageUrl e, 1, 0, false⟩
    | Except.ok hdr =>
      if content.length = hdr.getD 0 then
        ⟨some content, addSkip log imageUrl skipReasonCorrectSize, 1, 0, false⟩
      else
        match env.getResult with
        | Except.error e =>
          ⟨none, addErr (addRepl log imageUrl content.length (hdr.getD 0)) imageUrl e, 1, 1, true⟩
        | Except.ok body =>
          ⟨some body, addDl (addRepl log imageUrl content.length (hdr.getD 0)) imageUrl localFilepath, 1, 1, true⟩
  | none =>
    match env.getResult with
    | Except.error e => ⟨none, addErr log imageUrl e, 0, 1, false⟩
    | Except.ok body => ⟨some body, addDl log imageUrl localFilepath, 0, 1, false⟩

/-- Decision predicate: the invocation suffers a transport-level metadata or
content fetch failure (the situations in which `download_or_replace_image`
appends an errors entry). -/
def fetchFails (env : FetchEnv) : Bool :=
  match env.localFile with
  | none =>
    match env.getResult with
    | Except.error _ => true
    | Except.ok _ => false
  | some content =>
    match env.headResult with
    | Except.error _ => true
    | Except.ok hdr =>
      if content.length = hdr.getD 0 then false
      else
        match env.getResult with
        | Except.error _ => true
        | Except.ok _ => false

/-!
Model of the per-page image harvester `scrape_images` (lines 73-143).
The parsed page is a list of containers (the `div.x-column` elements); for
each container the extracted display name (the stripped text of the
`span.heading` inside its anchor, when present -- Python `None` is
`Option.none`) and the `img` element (`none` when absent; `some none` when
the tag has no `src`; `some (some s)` for `src` s) are inputs, together
with the container's fetch-or-replace environment.  `urljoin` is taken as
an opaque function parameter (its internals are irrelevant to the claims).
The real code schedules the downloads as tasks and gathers them after the
loop; the model runs the loop first (collecting rows, skip entries and
tasks) and then the tasks in order, which preserves the contents of every
log list and of the CSV buffer.
-/

/-- One parsed `div.x-column` container. -/
structure Container where
  projectName : Option (List Char)
  img : Option (Option (List Char))
deriving DecidableEq

/-- One CSV ledger row (line 136): original src, page path, final local
filename, subfolder name. -/
structure CsvRow where
  oldName : List Char
  urlPath : List Char
  newName : List Char
  folderName : List Char
deriving DecidableEq

/-- One scheduled download task. -/
structure DlTask where
  imageUrl : List Char
  filepath : List Char
  env : FetchEnv
deriving DecidableEq

/-- Containers that reach the download/CSV step: an `img` element with a
src that is non-empty and not a `data:` URI (lines 114-126 skip the
rest). -/
def hasValidSrc (c : Container) : Bool :=
  match c.img with
  | some (some s) => !s.isEmpty && !("data:".toList.isPrefixOf s)
  | _ => false

/-- Source reference of a container (meaningful when `hasValidSrc`). -/
def srcOf (c : Container) : List Char :=
  match c.img with
  | some (some s) => s
  | _ => []

/-- Python `"/".split` model: split a character list at slashes. -/
def splitOnSlash : List Char → List (List Char)
  | [] => [[]]
  | c :: rest =>
    match splitOnSlash rest with
    | [] => [[c]]
    | h :: t => if c = '/' then [] :: h :: t else (c :: h) :: t

/-- Python `str.strip("/")` model: drop leading and trailing slashes. -/
def stripSlashes (l : List Char) : List Char :=
  ((l.dropWhile (fun c => c = '/')).reverse.dropWhile (fun c => c = '/')).reverse

/-- Subfolder name computation (lines 88-91): strip slashes from the URL
path, split at slashes, join with hyphens (or the literal `root` for an
empty path), then `clean_filename`. -/
def subfolderName (urlPath : List Char) : List Char :=
  let parts := splitOnSlash (stripSlashes urlPath)
  let raw := if parts = [] ∨ parts = [[]] then "root".toList else List.intercalate ['-'] parts
  clean_filename raw

/-- Per-container loop of `scrape_images` (lines 101-138), carrying the
per-page fallback counter `image_counter`; returns the CSV rows, the
skipped entries and the download tasks produced, in order. -/
def processContainers (urlStr urlPath subfolder basedir : List Char)
    (urljoinF : List Char → List Char → List Char) :
    Nat → List (Container × FetchEnv) →
    List CsvRow × List (List Char × List Char) × List DlTask
  | _, [] => ([], [], [])
  | counter, (c, env) :: rest =>
    let fname1 := clean_filename (match c.projectName with
      | none => subfolder
      | some pn => pn)
    let fname2 := match c.projectName with
      | none => fname1 ++ '-' :: Nat.toDigits 10 counter
      | some _ => fname1
    let counter2 := match c.projectName with
      | none => counter + 1
      | some _ => counter
    match c.img with
    | none =>
      let r := processContainers urlStr urlPath subfolder basedir urljoinF counter2 rest
      (r.1, (urlStr, "No image found in container for project: ".toList ++ fname2) :: r.2.1, r.2.2)
    | some srcOpt =>
      match srcOpt with
      | none =>
        let r := processContainers urlStr urlPath subfolder basedir urljoinF counter2 rest
        (r.1, (urlStr, "Skipping image with invalid src in project: ".toList ++ fname2) :: r.2.1, r.2.2)
      | some src =>
        if src.isEmpty || "data:".toList.isPrefixOf src then
          let r := processContainers urlStr urlPath subfolder basedir urljoinF counter2 rest
          (r.1, (urlStr, "Skipping image with invalid src in project: ".toList ++ fname2) :: r.2.1, r.2.2)
        else
          let ext := pyExt src
          let imageUrl := urljoinF urlStr src
          let fp := basedir ++ "/360_images/".toList ++ subfolder ++ '/' :: (fname2 ++ ext)
          let r := processContainers urlStr urlPath subfolder basedir urljoinF counter2 rest
          (⟨src, urlPath, fname2 ++ ext, subfolder⟩ :: r.1, r.2.1, ⟨imageUrl, fp, env⟩ :: r.2.2)

/-- Run the gathered download tasks in order (line 140), threading the run
log through `download_or_replace_image`. -/
def runTasks : List DlTask → LogData → LogData
  | [], log => log
  | t :: rest, log => runTasks rest (download_or_replace_image t.imageUrl t.filepath t.env log).log

/-- Result of scraping one page: the CSV rows it appended and the run log
afterwards. -/
structure ScrapeResult where
  rows : List CsvRow
  log : LogData
deriving DecidableEq

/-- Model of `scrape_images` for one page (lines 73-143).  A failed page
fetch appends an errors entry and contributes nothing else (lines 79-86);
otherwise the container loop runs and then the gathered download tasks. -/
def scrape_images (urlStr urlPath basedir : List Char)
    (urljoinF : List Char → List Char → List Char)
    (page : Except (List Char) (List (Container × FetchEnv)))
    (log : LogData) : ScrapeResult :=
  match page with
  | Except.error e => ⟨[], addErr log urlStr e⟩
  | Except.ok containers =>
    let subfolder := subfolderName urlPath
    let r := processContainers urlStr urlPath subfolder basedir urljoinF 1 containers
    ⟨r.1, runTasks r.2.2 { log with skipped := log.skipped ++ r.2.1 }⟩

/-!
Model of the crawler `create_sitemap` (scrape_images.py lines 145-177).
URLs are an arbitrary type `α` with decidable equality; the projection
`netloc : α → String` models `urlparse(u).netloc` (the code compares
netlocs only, line 173 -- it never reads the scheme).  `fetch u` is the
outcome of fetching page `u`: `none` for a transport failure (caught on
lines 161-164), `some hrefs` for success, where `hrefs` are the link
targets already resolved by `urljoin(base_url, href)` (line 169).  The
Python sets `sitemap`, `to_visit` and `visited` are `Finset`s; the
unspecified order of `set.pop()` is an arbitrary `chooser` function that
picks some member of a nonempty finset.  The loop runs on explicit fuel
(`none` = fuel exhausted); the errors list collects the URLs whose fetch
failed.  Processing one page adds its eligible links in one batch, which
yields the same `to_visit` set as the code's one-at-a-time adds.
-/

/-- Model of `create_sitemap`: one state is (fuel, sitemap, to_visit,
visited, errors).  Pop an arbitrary member of `to_visit`; skip it if
already visited; mark it visited; on fetch failure record an error;
on success add the page to the sitemap and enqueue its same-netloc link
targets not already present in sitemap, to_visit or visited. -/
def create_sitemap {α : Type} [DecidableEq α] (netloc : α → String)
    (fetch : α → Option (List α))
    (chooser : (s : Finset α) → s.Nonempty → α) (base : α) :
    Nat → Finset α → Finset α → Finset α → List α → Option (Finset α × List α)
  | 0, _, _, _, _ => none
  | Nat.succ fuel, sitemap, toVisit, visited, errs =>
    if h : 0 < toVisit.card then
      let u := chooser toVisit (Finset.card_pos.mp h)
      let tv := toVisit.erase u
      if u ∈ visited then
        create_sitemap netloc fetch chooser base fuel sitemap tv visited errs
      else
        let vis := insert u visited
        match fetch u with
        | none => create_sitemap netloc fetch chooser base fuel sitemap tv vis (errs ++ [u])
        | some hrefs =>
          let sm := insert u sitemap
          let newOnes := (hrefs.filter (fun v =>
            decide (netloc v = netloc base ∧ v ∉ sm ∧ v ∉ tv ∧ v ∉ vis))).toFinset
          create_sitemap netloc fetch chooser base fuel sm (tv ∪ newOnes) vis errs
    else some (sitemap, errs)

/-- Deterministic chooser for concrete runs over `Fin n`: the smallest
member.  (The theorems quantify over every chooser; this one only serves to
evaluate concrete instances.) -/
def minChooser {n : Nat} (s : Finset (Fin n)) (h : s.Nonempty) : Fin n := s.min' h

/-- Concrete two-page web used for the crawler claims: URL 0 is the seed
`https://host/` and URL 1 is `http://host/x`, a link found on page 0 whose
scheme differs from the seed's but whose netloc is identical.  `netloc` of
each URL. -/
def twoPageNetloc : Fin 2 → String := fun _ => "host"

/-- Scheme of each URL of the two-page web (the crawler never reads it,
mirroring line 173, which compares netlocs only). -/
def twoPageScheme : Fin 2 → String := fun i => if i = 0 then "https" else "http"

/-- Fetch outcomes of the two-page web: page 0 links to 1, page 1 has no
links. -/
def twoPageFetch : Fin 2 → Option (List (Fin 2)) := fun i => if i = 0 then some [1] else some []

/-- Concrete 4-page same-origin link graph of spec section 8:
A→B,C; B→D; C→D; D→ (A ≍ 0, B ≍ 1, C ≍ 2, D ≍ 3). -/
def fourPageLinks : Fin 4 → List (Fin 4) :=
  fun u => if u = 0 then [1, 2] else if u = 1 then [3] else if u = 2 then [3] else []

/-- Conversion helper: characters are equal when their code points are. -/
theorem char_eq_of_toNat_eq {a b : Char} (h : a.toNat = b.toNat) : a = b :=
  Char.eq_of_val_eq (UInt32.ext h)

/-!
Sanity checks: concrete evaluations of the model, matching the behaviour of
the Python functions on the same inputs.
-/

example : clean_filename "hello world.JPG".toList = "hello-world.JPG".toList := by decide
example : clean_filename "a..b.txt".toList = "ab.txt".toList := by decide
example : clean_filename "!.png".toList = ".png".toList := by decide
example : clean_filename ".png".toList = "png".toList := by decide
example : pyExt "a.png?v=1.2".toList = ".2".toList := by decide
example : pyExt "a.png?v=1".toList = ".png".toList := by decide
example : pyExt "abc".toList = ".jpg".toList := by decide
example : specDescribedExt "a.png?v=1.2".toList = ".png".toList := by decide
example : splitext "a/b.c".toList = ("a/b".toList, ".c".toList) := by decide
example : splitext "a/..b".toList = ("a/..b".toList, []) := by decide
example : splitext "..b".toList = ("..b".toList, []) := by decide

example :
    create_sitemap (fun _ => "h") (fun u => some (if u = 0 then [1, 2] else if u = 1 then [3] else if u = 2 then [3] else []))
      minChooser (0 : Fin 4) 25 ∅ {0} ∅ [] = some ({3, 2, 1, 0}, []) := by decide

/-!
Claims C5, C6, C9 and C10: behaviour of the fetch-or-replace primitive.
-/

/-- C5: when a local file exists and its byte size equals the remote
declared content length, the primitive performs zero content-fetch (GET)
requests, leaves the local file unchanged (and never deletes it), and
records the item as skipped. -/
theorem download_skips_when_sizes_equal (u fp : List Char) (content : List Nat)
    (hdr : Option Nat) (g : Except (List Char) (List Nat)) (log : LogData)
    (hsize : content.length = hdr.getD 0) :
    (download_or_replace_image u fp ⟨some content, Except.ok hdr, g⟩ log).getRequests = 0 ∧
    (download_or_replace_image u fp ⟨some content, Except.ok hdr, g⟩ log).file = some content ∧
    (download_or_replace_image u fp ⟨some content, Except.ok hdr, g⟩ log).removed = false ∧
    (download_or_replace_image u fp ⟨some content, Except.ok hdr, g⟩ log).log.skipped
      = log.skipped ++ [(u, skipReasonCorrectSize)] := by
  simp [download_or_replace_image, hsize, addSkip]

/-- Witness for C5 at a concrete input: local file of 2 bytes, declared
remote length 2. -/
theorem download_skips_when_sizes_equal_witness :
    ([9, 9] : List Nat).length = (some 2 : Option Nat).getD 0 ∧
    ((download_or_replace_image "u".toList "f".toList
        ⟨some [9, 9], Except.ok (some 2), Except.ok []⟩ emptyLog).getRequests = 0 ∧
      (download_or_replace_image "u".toList "f".toList
        ⟨some [9, 9], Except.ok (some 2), Except.ok []⟩ emptyLog).file = some [9, 9] ∧
      (download_or_replace_image "u".toList "f".toList
        ⟨some [9, 9], Except.ok (some 2), Except.ok []⟩ emptyLog).removed = false ∧
      (download_or_replace_image "u".toList "f".toList
        ⟨some [9, 9], Except.ok (some 2), Except.ok []⟩ emptyLog).log.skipped
        = emptyLog.skipped ++ [("u".toList, skipReasonCorrectSize)]) :=
  ⟨by decide, download_skips_when_sizes_equal "u".toList "f".toList [9, 9] (some 2)
      (Except.ok []) emptyLog (by decide)⟩

/-- C6: when a local file exists and its byte size differs from the remote
declared content length, and the content fetch succeeds, the primitive
deletes the old file (`os.remove` runs), fetches the content with one GET,
writes the new body to the path, and appends a replaced entry carrying the
old and the new size. -/
theorem download_replaces_when_sizes_differ (u fp : List Char) (content body : List Nat)
    (hdr : Option Nat) (log : LogData)
    (hsize : content.length ≠ hdr.getD 0) :
    (download_or_replace_image u fp ⟨some content, Except.ok hdr, Except.ok body⟩ log).removed = true ∧
    (download_or_replace_image u fp ⟨some content, Except.ok hdr, Except.ok body⟩ log).getRequests = 1 ∧
    (download_or_replace_image u fp ⟨some content, Except.ok hdr, Except.ok body⟩ log).file = some body ∧
    (download_or_replace_image u fp ⟨some content, Except.ok hdr, Except.ok body⟩ log).log.replaced
      = log.replaced ++ [(u, content.length, hdr.getD 0)] := by
  simp [download_or_replace_image, hsize, addRepl, addDl]

/-- Witness for C6 at a concrete input: local file of 2 bytes, declared
remote length 3, fetched body [7, 7, 7]. -/
theorem download_replaces_when_sizes_differ_witness :
    ([9, 9] : List Nat).length ≠ (some 3 : Option Nat).getD 0 ∧
    ((download_or_replace_image "u".toList "f".toList
        ⟨some [9, 9], Except.ok (some 3), Except.ok [7, 7, 7]⟩ emptyLog).removed = true ∧
      (download_or_replace_image "u".toList "f".toList
        ⟨some [9, 9], Except.ok (some 3), Except.ok [7, 7, 7]⟩ emptyLog).getRequests = 1 ∧
      (download_or_replace_image "u".toList "f".toList
        ⟨some [9, 9], Except.ok (some 3), Except.ok [7, 7, 7]⟩ emptyLog).file = some [7, 7, 7] ∧
      (download_or_replace_image "u".toList "f".toList
        ⟨some [9, 9], Except.ok (some 3), Except.ok [7, 7, 7]⟩ emptyLog).log.replaced
        = emptyLog.replaced ++ [("u".toList, 2, 3)]) :=
  ⟨by decide, download_replaces_when_sizes_differ "u".toList "f".toList [9, 9] [7, 7, 7]
      (some 3) emptyLog (by decide)⟩

/-- C9: when a local file exists with a size differing from the declared
remote size and the subsequent content fetch fails, the old file has
already been deleted and is not restored (no file remains at the path), and
the item is recorded in both the replaced list and the errors list. -/
theorem download_error_after_delete (u fp : List Char) (content : List Nat)
    (hdr : Option Nat) (e : List Char) (log : LogData)
    (hsize : content.length ≠ hdr.getD 0) :
    (download_or_replace_image u fp ⟨some content, Except.ok hdr, Except.error e⟩ log).file = none ∧
    (download_or_replace_image u fp ⟨some content, Except.ok hdr, Except.error e⟩ log).removed = true ∧
    (download_or_replace_image u fp ⟨some content, Except.ok hdr, Except.error e⟩ log).log.replaced
      = log.replaced ++ [(u, content.length, hdr.getD 0)] ∧
    (download_or_replace_image u fp ⟨some content, Except.ok hdr, Except.error e⟩ log).log.errors
      = log.errors ++ [(u, e)] := by
  simp [download_or_replace_image, hsize, addRepl, addErr]

/-- Witness for C9 at a concrete input. -/
theorem download_error_after_delete_witness :
    ([9, 9] : List Nat).length ≠ (some 3 : Option Nat).getD 0 ∧
    ((download_or_replace_image "u".toList "f".toList
        ⟨some [9, 9], Except.ok (some 3), Except.error "boom".toList⟩ emptyLog).file = none ∧
      (download_or_replace_image "u".toList "f".toList
        ⟨some [9, 9], Except.ok (some 3), Except.error "boom".toList⟩ emptyLog).removed = true ∧
      (download_or_replace_image "u".toList "f".toList
        ⟨some [9, 9], Except.ok (some 3), Except.error "boom".toList⟩ emptyLog).log.replaced
        = emptyLog.replaced ++ [("u".toList, 2, 3)] ∧
      (download_or_replace_image "u".toList "f".toList
        ⟨some [9, 9], Except.ok (some 3), Except.error "boom".toList⟩ emptyLog).log.errors
        = emptyLog.errors ++ [("u".toList, "boom".toList)]) :=
  ⟨by decide, download_error_after_delete "u".toList "f".toList [9, 9] (some 3)
      "boom".toList emptyLog (by decide)⟩

/-- C10: when the HEAD response carries no Content-Length header the remote
declared size is taken to be 0 (line 40); consequently, on every run, an
existing zero-byte local file is skipped with no GET request, and an
existing non-empty local file is deleted and recorded as replaced (old
size, new size 0), whatever the content fetch then returns. -/
theorem download_no_content_length (u fp : List Char) (content : List Nat)
    (g : Except (List Char) (List Nat)) (log : LogData) :
    (content = [] →
      (download_or_replace_image u fp ⟨some content, Except.ok none, g⟩ log).getRequests = 0 ∧
      (download_or_replace_image u fp ⟨some content, Except.ok none, g⟩ log).file = some content ∧
      (download_or_replace_image u fp ⟨some content, Except.ok none, g⟩ log).log.skipped
        = log.skipped ++ [(u, skipReasonCorrectSize)]) ∧
    (content ≠ [] →
      (download_or_replace_image u fp ⟨some content, Except.ok none, g⟩ log).removed = true ∧
      (download_or_replace_image u fp ⟨some content, Except.ok none, g⟩ log).log.replaced
        = log.replaced ++ [(u, content.length, 0)]) := by
  constructor
  · intro hc
    subst hc
    simp [download_or_replace_image, addSkip]
  · intro hc
    cases g with
    | error e => simp [download_or_replace_image, hc, addRepl, addErr]
    | ok body => simp [download_or_replace_image, hc, addRepl, addDl]

/-- Witness for C10, applying the theorem both to an empty and to a
non-empty local file. -/
theorem download_no_content_length_witness :
    ((download_or_replace_image "u".toList "f".toList
        ⟨some [], Except.ok none, Except.ok [1]⟩ emptyLog).getRequests = 0 ∧
      (download_or_replace_image "u".toList "f".toList
        ⟨some [], Except.ok none, Except.ok [1]⟩ emptyLog).file = some [] ∧
      (download_or_replace_image "u".toList "f".toList
        ⟨some [], Except.ok none, Except.ok [1]⟩ emptyLog).log.skipped
        = emptyLog.skipped ++ [("u".toList, skipReasonCorrectSize)]) ∧
    ((download_or_replace_image "u".toList "f".toList
        ⟨some [9], Except.ok none, Except.ok [1]⟩ emptyLog).removed = true ∧
      (download_or_replace_image "u".toList "f".toList
        ⟨some [9], Except.ok none, Except.ok [1]⟩ emptyLog).log.replaced
        = emptyLog.replaced ++ [("u".toList, 1, 0)]) :=
  ⟨(download_no_content_length "u".toList "f".toList [] (Except.ok [1]) emptyLog).1 rfl,
    (download_no_content_length "u".toList "f".toList [9] (Except.ok [1]) emptyLog).2 (by decide)⟩

/-!
Character-level lemmas about the cleaning pipeline.
-/

/-- Numeric characterisation of `dashWsChar`. -/
theorem dashWs_iff (c : Char) :
    dashWsChar c = true ↔
      (c.toNat = 32 ∨ (9 ≤ c.toNat ∧ c.toNat ≤ 13) ∨ c.toNat = 95 ∨ c.toNat = 45) := by
  simp [dashWsChar, pySpaceChar]
  omega

/-- Numeric characterisation of `keepChar`. -/
theorem keep_iff (c : Char) :
    keepChar c = true ↔
      ((48 ≤ c.toNat ∧ c.toNat ≤ 57) ∨ (65 ≤ c.toNat ∧ c.toNat ≤ 90) ∨
        (97 ≤ c.toNat ∧ c.toNat ≤ 122) ∨ c.toNat = 95 ∨ c.toNat = 32 ∨
        (9 ≤ c.toNat ∧ c.toNat ≤ 13) ∨ c.toNat = 45) := by
  simp [keepChar, pyWordChar, pySpaceChar]
  omega

/-- Numeric characterisation of `pySpaceChar`. -/
theorem space_iff (c : Char) :
    pySpaceChar c = true ↔ (c.toNat = 32 ∨ (9 ≤ c.toNat ∧ c.toNat ≤ 13)) := by
  simp [pySpaceChar]

/-- Code point of `pyLower`. -/
theorem toNat_pyLower (c : Char) :
    (pyLower c).toNat = if 65 ≤ c.toNat ∧ c.toNat ≤ 90 then c.toNat + 32 else c.toNat := by
  by_cases h : 65 ≤ c.toNat ∧ c.toNat ≤ 90
  · rw [pyLower, if_pos h, if_pos h]
    have hv : (c.toNat + 32).isValidChar := Or.inl (by omega)
    rw [Char.ofNat, dif_pos hv]
    simp [Char.ofNatAux, Char.toNat, UInt32.toNat, UInt32.ofNatCore]
  · rw [pyLower, if_neg h, if_neg h]

/-- Lower-casing is idempotent. -/
theorem pyLower_idem (c : Char) : pyLower (pyLower c) = pyLower c := by
  by_cases h : 65 ≤ c.toNat ∧ c.toNat ≤ 90
  · have ht : (pyLower c).toNat = c.toNat + 32 := by rw [toNat_pyLower, if_pos h]
    have hn : ¬(65 ≤ (pyLower c).toNat ∧ (pyLower c).toNat ≤ 90) := by omega
    rw [pyLower, if_neg hn]
  · have hc : pyLower c = c := by rw [pyLower, if_neg h]
    rw [hc, hc]

/-- Lower-casing preserves membership in the `[\s_-]` class. -/
theorem dashWs_pyLower (c : Char) : dashWsChar (pyLower c) = dashWsChar c := by
  by_cases h : 65 ≤ c.toNat ∧ c.toNat ≤ 90
  · have ht : (pyLower c).toNat = c.toNat + 32 := by rw [toNat_pyLower, if_pos h]
    have h1 : dashWsChar (pyLower c) = false := by
      rw [Bool.eq_false_iff]
      intro hx
      rw [dashWs_iff] at hx
      omega
    have h2 : dashWsChar c = false := by
      rw [Bool.eq_false_iff]
      intro hx
      rw [dashWs_iff] at hx
      omega
    rw [h1, h2]
  · have hc : pyLower c = c := by rw [pyLower, if_neg h]
    rw [hc]

/-- Characters that can appear in the output of the cleaning pipeline:
digits, lower-case letters and the hyphen. -/
def goodChar (c : Char) : Bool :=
  (48 ≤ c.toNat && c.toNat ≤ 57) || (97 ≤ c.toNat && c.toNat ≤ 122) || c.toNat = 45

/-- Numeric characterisation of `goodChar`. -/
theorem good_iff (c : Char) :
    goodChar c = true ↔
      ((48 ≤ c.toNat ∧ c.toNat ≤ 57) ∨ (97 ≤ c.toNat ∧ c.toNat ≤ 122) ∨ c.toNat = 45) := by
  simp [goodChar]
  omega

/-- Membership in `pyStrip` output implies membership in the input. -/
theorem mem_pyStrip {c : Char} {l : List Char} (h : c ∈ pyStrip l) : c ∈ l := by
  unfold pyStrip at h
  rw [List.mem_reverse] at h
  have h2 := (List.dropWhile_sublist pySpaceChar).mem h
  rw [List.mem_reverse] at h2
  exact (List.dropWhile_sublist pySpaceChar).mem h2

/-- Membership in `collapseDotRuns` output implies membership in the input. -/
theorem mem_collapseDotRuns {c : Char} : ∀ {l : List Char}, c ∈ collapseDotRuns l → c ∈ l := by
  intro l
  induction l with
  | nil => intro h; simpa [collapseDotRuns] using h
  | cons a rest ih =>
    cases rest with
    | nil => intro h; simpa [collapseDotRuns] using h
    | cons b t =>
      intro h
      simp only [collapseDotRuns] at h
      by_cases hc : (a = '.' && b = '.') = true
      · rw [if_pos hc] at h
        exact List.mem_cons_of_mem a (ih h)
      · rw [if_neg hc] at h
        rcases List.mem_cons.mp h with h1 | h1
        · exact h1 ▸ List.mem_cons_self a (b :: t)
        · exact List.mem_cons_of_mem a (ih h1)

/-- Every character of `collapseDashRuns l` is a hyphen or a non-`[\s_-]`
character of `l`. -/
theorem mem_collapseDashRuns {c : Char} :
    ∀ {l : List Char}, c ∈ collapseDashRuns l →
      c = '-' ∨ (c ∈ l ∧ dashWsChar c = false) := by
  intro l
  induction l with
  | nil => intro h; simp [collapseDashRuns] at h
  | cons a rest ih =>
    cases rest with
    | nil =>
      intro h
      simp only [collapseDashRuns] at h
      by_cases ha : dashWsChar a = true
      · rw [if_pos ha] at h
        left
        simpa using h
      · rw [if_neg ha] at h
        right
        simp only [List.mem_singleton] at h
        exact ⟨h ▸ List.mem_cons_self a [], h ▸ Bool.eq_false_iff.mpr ha⟩
    | cons b t =>
      intro h
      simp only [collapseDashRuns] at h
      by_cases ha : dashWsChar a = true
      · rw [if_pos ha] at h
        by_cases hb : dashWsChar b = true
        · rw [if_pos hb] at h
          rcases ih h with h1 | ⟨h1, h2⟩
          · exact Or.inl h1
          · exact Or.inr ⟨List.mem_cons_of_mem a h1, h2⟩
        · rw [if_neg hb] at h
          rcases List.mem_cons.mp h with h1 | h1
          · exact Or.inl h1
          · rcases ih h1 with h2 | ⟨h2, h3⟩
            · exact Or.inl h2
            · exact Or.inr ⟨List.mem_cons_of_mem a h2, h3⟩
      · rw [if_neg ha] at h
        rcases List.mem_cons.mp h with h1 | h1
        · exact Or.inr ⟨h1 ▸ List.mem_cons_self a (b :: t), h1 ▸ Bool.eq_false_iff.mpr ha⟩
        · rcases ih h1 with h2 | ⟨h2, h3⟩
          · exact Or.inl h2
          · exact Or.inr ⟨List.mem_cons_of_mem a h2, h3⟩

/-- Adjacent characters of a collapsed string are never both in `[\s_-]`. -/
def noAdjDash (a b : Char) : Prop := dashWsChar a = false ∨ dashWsChar b = false

/-- Every character of the cleaning pipeline's output is a digit, a
lower-case letter or a hyphen. -/
theorem nameClean_good {s : List Char} : ∀ c ∈ nameClean s, goodChar c = true := by
  intro c h
  unfold nameClean at h
  rcases List.mem_map.mp h with ⟨c0, h0, rfl⟩
  rcases mem_collapseDashRuns (mem_collapseDotRuns h0) with h1 | ⟨h1, h2⟩
  · subst h1
    decide
  · have hk : keepChar c0 = true := (List.mem_filter.mp (mem_pyStrip h1)).2
    rw [keep_iff] at hk
    have h2' : ¬(c0.toNat = 32 ∨ (9 ≤ c0.toNat ∧ c0.toNat ≤ 13) ∨ c0.toNat = 95 ∨ c0.toNat = 45) :=
      fun hp => Bool.eq_false_iff.mp h2 ((dashWs_iff c0).mpr hp)
    rw [good_iff, toNat_pyLower]
    by_cases hu : 65 ≤ c0.toNat ∧ c0.toNat ≤ 90
    · rw [if_pos hu]
      omega
    · rw [if_neg hu]
      omega

/-- Unfolding equation of `collapseDotRuns` on two or more elements. -/
theorem collapseDotRuns_cons_cons (a b : Char) (t : List Char) :
    collapseDotRuns (a :: b :: t) =
      if a = '.' && b = '.' then collapseDotRuns (b :: t)
      else a :: collapseDotRuns (b :: t) := rfl

/-- Unfolding equation of `collapseDashRuns` on two or more elements. -/
theorem collapseDashRuns_cons_cons (a b : Char) (t : List Char) :
    collapseDashRuns (a :: b :: t) =
      if dashWsChar a then
        (if dashWsChar b then collapseDashRuns (b :: t) else '-' :: collapseDashRuns (b :: t))
      else a :: collapseDashRuns (b :: t) := rfl

/-- Mapping a function that fixes every element of a list is the identity. -/
theorem map_eq_self_of {α : Type} {f : α → α} :
    ∀ {l : List α}, (∀ c ∈ l, f c = c) → l.map f = l := by
  intro l
  induction l with
  | nil => intro _; rfl
  | cons a t ih =>
    intro h
    simp only [List.map_cons]
    rw [h a (List.mem_cons_self a t), ih (fun c hc => h c (List.mem_cons_of_mem a hc))]

/-- Dropping-while over a list none of whose elements satisfies the
predicate is the identity. -/
theorem dropWhile_eq_self_of {α : Type} {p : α → Bool} :
    ∀ {l : List α}, (∀ c ∈ l, p c = false) → l.dropWhile p = l := by
  intro l
  induction l with
  | nil => intro _; rfl
  | cons a t _ =>
    intro h
    rw [List.dropWhile_cons, h a (List.mem_cons_self a t)]
    simp

/-- Taking-while over a list all of whose elements satisfy the predicate is
the identity. -/
theorem takeWhile_eq_self_of {α : Type} {p : α → Bool} :
    ∀ {l : List α}, (∀ c ∈ l, p c = true) → l.takeWhile p = l := by
  intro l
  induction l with
  | nil => intro _; rfl
  | cons a t ih =>
    intro h
    rw [List.takeWhile_cons, h a (List.mem_cons_self a t)]
    simp only [if_true]
    rw [ih (fun c hc => h c (List.mem_cons_of_mem a hc))]

/-- Stripping a list with no whitespace at all is the identity. -/
theorem pyStrip_eq_self {l : List Char} (h : ∀ c ∈ l, pySpaceChar c = false) :
    pyStrip l = l := by
  unfold pyStrip
  rw [dropWhile_eq_self_of h]
  rw [dropWhile_eq_self_of (fun c hc => h c (List.mem_reverse.mp hc))]
  exact List.reverse_reverse l

/-- Collapsing period runs in a period-free list is the identity. -/
theorem collapseDotRuns_eq_self : ∀ {l : List Char}, (∀ c ∈ l, c ≠ '.') →
    collapseDotRuns l = l := by
  intro l
  induction l with
  | nil => intro _; rfl
  | cons a rest ih =>
    cases rest with
    | nil => intro _; rfl
    | cons b t =>
      intro h
      have ha : a ≠ '.' := h a (List.mem_cons_self a (b :: t))
      have hcond : (a = '.' && b = '.') = false := by
        simp [ha]
      rw [collapseDotRuns_cons_cons, hcond]
      simp only [Bool.false_eq_true, if_false]
      rw [ih (fun c hc => h c (List.mem_cons_of_mem a hc))]

/-- Head shape of `collapseDashRuns` on a nonempty list. -/
theorem collapseDashRuns_cons_shape : ∀ (t : List Char) (a : Char),
    ∃ r, collapseDashRuns (a :: t) = (if dashWsChar a then '-' else a) :: r := by
  intro t
  induction t with
  | nil =>
    intro a
    refine ⟨[], ?_⟩
    by_cases h : dashWsChar a = true <;> simp [collapseDashRuns, h]
  | cons b t ih =>
    intro a
    by_cases ha : dashWsChar a = true
    · by_cases hb : dashWsChar b = true
      · obtain ⟨r, hr⟩ := ih b
        refine ⟨r, ?_⟩
        have hstep : collapseDashRuns (a :: b :: t) = collapseDashRuns (b :: t) := by
          simp [collapseDashRuns, ha, hb]
        rw [hstep, hr, if_pos hb, if_pos ha]
      · refine ⟨collapseDashRuns (b :: t), ?_⟩
        rw [if_pos ha]
        simp [collapseDashRuns, ha, hb]
    · refine ⟨collapseDashRuns (b :: t), ?_⟩
      rw [if_neg ha]
      simp [collapseDashRuns, ha]

/-- The output of `collapseDashRuns` never has two adjacent `[\s_-]`
characters. -/
theorem chain_collapseDashRuns : ∀ (l : List Char), List.Chain' noAdjDash (collapseDashRuns l)
  | [] => by simp [collapseDashRuns]
  | [a] => by by_cases h : dashWsChar a = true <;> simp [collapseDashRuns, h]
  | a :: b :: t => by
    have ihb := chain_collapseDashRuns (b :: t)
    by_cases ha : dashWsChar a = true
    · by_cases hb : dashWsChar b = true
      · have hstep : collapseDashRuns (a :: b :: t) = collapseDashRuns (b :: t) := by
          simp [collapseDashRuns, ha, hb]
        rw [hstep]
        exact ihb
      · have hstep : collapseDashRuns (a :: b :: t) = '-' :: collapseDashRuns (b :: t) := by
          rw [collapseDashRuns_cons_cons, if_pos ha, if_neg hb]
        obtain ⟨r, hr⟩ := collapseDashRuns_cons_shape t b
        rw [hstep]
        rw [hr] at ihb ⊢
        rw [if_neg hb] at ihb ⊢
        exact List.chain'_cons.mpr ⟨Or.inr (Bool.eq_false_iff.mpr hb), ihb⟩
    · have hstep : collapseDashRuns (a :: b :: t) = a :: collapseDashRuns (b :: t) := by
        rw [collapseDashRuns_cons_cons, if_neg ha]
      obtain ⟨r, hr⟩ := collapseDashRuns_cons_shape t b
      rw [hstep]
      rw [hr] at ihb ⊢
      exact List.chain'_cons.mpr ⟨Or.inl (Bool.eq_false_iff.mpr ha), ihb⟩

/-- Collapsing `[\s_-]` runs is the identity on lists whose only `[\s_-]`
characters are single hyphens with no two adjacent. -/
theorem collapseDashRuns_eq_self : ∀ {l : List Char},
    (∀ c ∈ l, dashWsChar c = true → c = '-') → List.Chain' noAdjDash l →
    collapseDashRuns l = l := by
  intro l
  induction l with
  | nil => intro _ _; rfl
  | cons a rest ih =>
    cases rest with
    | nil =>
      intro h1 _
      by_cases ha : dashWsChar a = true
      · have := h1 a (List.mem_cons_self a []) ha
        simp [collapseDashRuns, ha, this]
      · simp [collapseDashRuns, ha]
    | cons b t =>
      intro h1 h2
      obtain ⟨hab, h2'⟩ := List.chain'_cons.mp h2
      have htail := ih (fun c hc hd => h1 c (List.mem_cons_of_mem a hc) hd) h2'
      by_cases ha : dashWsChar a = true
      · have hb : dashWsChar b = false := by
          rcases hab with h | h
          · rw [ha] at h; exact absurd h (by simp)
          · exact h
        have haa : a = '-' := h1 a (List.mem_cons_self a (b :: t)) ha
        have hstep : collapseDashRuns (a :: b :: t) = '-' :: collapseDashRuns (b :: t) := by
          simp [collapseDashRuns, ha, hb]
        rw [hstep, htail, haa]
      · have hstep : collapseDashRuns (a :: b :: t) = a :: collapseDashRuns (b :: t) := by
          simp [collapseDashRuns, ha]
        rw [hstep, htail]

/-- The cleaning pipeline is idempotent. -/
theorem nameClean_idem (s : List Char) : nameClean (nameClean s) = nameClean s := by
  have hkeep : ∀ c ∈ nameClean s, keepChar c = true := by
    intro c hc
    have := (good_iff c).mp (nameClean_good c hc)
    rw [keep_iff]
    omega
  have hnospace : ∀ c ∈ nameClean s, pySpaceChar c = false := by
    intro c hc
    have := (good_iff c).mp (nameClean_good c hc)
    rw [Bool.eq_false_iff]
    intro hx
    rw [space_iff] at hx
    omega
  have hnodot : ∀ c ∈ nameClean s, c ≠ '.' := by
    intro c hc he
    have hgood := (good_iff c).mp (nameClean_good c hc)
    have h46 : ('.' : Char).toNat = 46 := rfl
    rw [he, h46] at hgood
    omega
  have hdash : ∀ c ∈ nameClean s, dashWsChar c = true → c = '-' := by
    intro c hc hd
    have hgood := (good_iff c).mp (nameClean_good c hc)
    rw [dashWs_iff] at hd
    have h45 : c.toNat = 45 := by omega
    exact char_eq_of_toNat_eq (h45.trans rfl)
  have hlower : ∀ c ∈ nameClean s, pyLower c = c := by
    intro c hc
    unfold nameClean at hc
    rcases List.mem_map.mp hc with ⟨c0, _, rfl⟩
    exact pyLower_idem c0
  have hfilterdot : ∀ c ∈ pyStrip (s.filter keepChar), c ≠ '.' := by
    intro c hc he
    have hk := (List.mem_filter.mp (mem_pyStrip hc)).2
    rw [keep_iff] at hk
    have h46 : ('.' : Char).toNat = 46 := rfl
    rw [he, h46] at hk
    omega
  have hdotid : collapseDotRuns (collapseDashRuns (pyStrip (s.filter keepChar)))
      = collapseDashRuns (pyStrip (s.filter keepChar)) := by
    apply collapseDotRuns_eq_self
    intro c hc
    rcases mem_collapseDashRuns hc with h1 | ⟨h1, _⟩
    · subst h1; decide
    · exact hfilterdot c h1
  have hchain : List.Chain' noAdjDash (nameClean s) := by
    unfold nameClean
    rw [hdotid, List.chain'_map]
    apply List.Chain'.imp ?_ (chain_collapseDashRuns _)
    intro a b hab
    rcases hab with h1 | h1
    · exact Or.inl (by rw [dashWs_pyLower]; exact h1)
    · exact Or.inr (by rw [dashWs_pyLower]; exact h1)
  show List.map pyLower (collapseDotRuns (collapseDashRuns (pyStrip
    ((nameClean s).filter keepChar)))) = nameClean s
  rw [List.filter_eq_self.mpr hkeep, pyStrip_eq_self hnospace,
    collapseDashRuns_eq_self hdash hchain, collapseDotRuns_eq_self hnodot]
  exact map_eq_self_of hlower

/-!
Claim C4: period runs in the name part.
-/

/-- Counterexample to C4 as stated: `a..b.txt` has the run `..` in its name
part `a..b`, but slugification yields `ab.txt`, whose name part `ab`
contains no period at all -- not exactly one. -/
theorem clean_filename_period_run_counterexample :
    (splitext "a..b.txt".toList).1 = "a..b".toList ∧
    clean_filename "a..b.txt".toList = "ab.txt".toList ∧
    (splitext (clean_filename "a..b.txt".toList)).1 = "ab".toList ∧
    ('.' ∈ (splitext (clean_filename "a..b.txt".toList)).1 → False) := by
  decide

/-- C4 amended: for every raw filename, slugification removes every period
from the name part (the first substitution deletes periods before the
period-collapse step can see them), so the cleaned name part the output is
built from contains no period whatsoever. -/
theorem clean_filename_name_part_no_period (f : List Char) :
    clean_filename f = nameClean (splitext f).1 ++ (splitext f).2 ∧
    ∀ c ∈ nameClean (splitext f).1, c ≠ '.' := by
  refine ⟨rfl, ?_⟩
  intro c hc he
  have hgood := (good_iff c).mp (nameClean_good c hc)
  have h46 : ('.' : Char).toNat = 46 := rfl
  rw [he, h46] at hgood
  omega

/-- Witness for the amended C4 at a concrete input. -/
theorem clean_filename_name_part_no_period_witness :
    'a' ∈ nameClean (splitext "a..b.txt".toList).1 ∧ 'a' ≠ '.' :=
  ⟨by decide, (clean_filename_name_part_no_period "a..b.txt".toList).2 'a' (by decide)⟩

/-!
Structural lemmas about `splitext`.
-/

/-- Successful extension scans decompose the (reversed) input. -/
theorem extScanRev_eq_some : ∀ {r t preR : List Char},
    extScanRev r = some (t, preR) →
    r = t ++ '.' :: preR ∧ ∀ c ∈ t, c ≠ '.' ∧ c ≠ '/' := by
  intro r
  induction r with
  | nil => intro t preR h; simp [extScanRev] at h
  | cons c rest ih =>
    intro t preR h
    simp only [extScanRev] at h
    by_cases hc : c = '.'
    · rw [if_pos hc] at h
      by_cases hcond :
          ((rest.takeWhile (fun d => d ≠ '/')).any (fun d => d ≠ '.')) = true
      · rw [if_pos hcond] at h
        obtain ⟨ht, hp⟩ := Prod.mk.injEq _ _ _ _ ▸ Option.some.injEq _ _ ▸ h
        subst ht
        subst hp
        subst hc
        exact ⟨rfl, by intro x hx; simp at hx⟩
      · rw [if_neg hcond] at h
        exact absurd h (by simp)
    · rw [if_neg hc] at h
      by_cases hs : c = '/'
      · rw [if_pos hs] at h
        exact absurd h (by simp)
      · rw [if_neg hs] at h
        cases heq : extScanRev rest with
        | none => rw [heq] at h; exact absurd h (by simp)
        | some pr =>
          rw [heq] at h
          obtain ⟨t', preR'⟩ := pr
          simp only [Option.some.injEq, Prod.mk.injEq] at h
          obtain ⟨ht, hp⟩ := h
          obtain ⟨hrest, hprops⟩ := ih heq
          subst hp
          rw [← ht, hrest]
          refine ⟨rfl, ?_⟩
          intro x hx
          rcases List.mem_cons.mp hx with h1 | h1
          · exact h1 ▸ ⟨hc, hs⟩
          · exact hprops x h1
  
/-- Scanning past a period-free, slash-free prefix. -/
theorem extScanRev_append : ∀ {a r : List Char},
    (∀ c ∈ a, c ≠ '.' ∧ c ≠ '/') →
    extScanRev (a ++ r) = match extScanRev r with
      | some (t, preR) => some (a ++ t, preR)
      | none => none := by
  intro a
  induction a with
  | nil =>
    intro r _
    cases heq : extScanRev r with
    | none => simp [heq]
    | some pr => obtain ⟨t, preR⟩ := pr; simp [heq]
  | cons c a ih =>
    intro r h
    have hc := h c (List.mem_cons_self c a)
    simp only [List.cons_append, extScanRev]
    rw [if_neg hc.1, if_neg hc.2]
    simp only [List.append_eq]
    rw [ih (fun x hx => h x (List.mem_cons_of_mem c hx))]
    cases heq : extScanRev r with
    | none => simp
    | some pr => obtain ⟨t, preR⟩ := pr; simp

/-- Period-free strings have no extension scan. -/
theorem extScanRev_eq_none : ∀ {r : List Char}, (∀ c ∈ r, c ≠ '.') →
    extScanRev r = none := by
  intro r
  induction r with
  | nil => intro _; rfl
  | cons c rest ih =>
    intro h
    simp only [extScanRev]
    rw [if_neg (h c (List.mem_cons_self c rest))]
    by_cases hs : c = '/'
    · rw [if_pos hs]
    · rw [if_neg hs, ih (fun x hx => h x (List.mem_cons_of_mem c hx))]

/-- A period-free path splits into itself with an empty extension. -/
theorem splitext_of_no_dot {p : List Char} (h : ∀ c ∈ p, c ≠ '.') :
    splitext p = (p, []) := by
  unfold splitext
  rw [extScanRev_eq_none (fun c hc => h c (List.mem_reverse.mp hc))]

/-- Splitting a name-with-extension: when the body is nonempty, period-free
and slash-free and the extension tail is period- and slash-free, `splitext`
recovers exactly the body and the extension. -/
theorem splitext_append_ext {body tail : List Char} (hne : body ≠ [])
    (hdot : ∀ c ∈ body, c ≠ '.') (hslash : ∀ c ∈ body, c ≠ '/')
    (htail : ∀ c ∈ tail, c ≠ '.' ∧ c ≠ '/') :
    splitext (body ++ '.' :: tail) = (body, '.' :: tail) := by
  unfold splitext
  have hrev : (body ++ '.' :: tail).reverse = tail.reverse ++ '.' :: body.reverse := by
    simp
  rw [hrev]
  rw [extScanRev_append (fun c hc => htail c (List.mem_reverse.mp hc))]
  have hscan : extScanRev ('.' :: body.reverse) = some ([], body.reverse) := by
    have htw2 : body.reverse.takeWhile (fun d => !decide (d = '/')) = body.reverse :=
      takeWhile_eq_self_of (fun c hc => by simp [hslash c (List.mem_reverse.mp hc)])
    obtain ⟨x, hx⟩ := List.exists_mem_of_ne_nil body hne
    simp [extScanRev, htw2]
    exact ⟨x, hx, hdot x hx⟩
  rw [hscan]
  simp

/-- Shape of the extension returned by `splitext`: empty, or a period
followed by a period-free, slash-free tail. -/
theorem splitext_ext_shape (p : List Char) :
    (splitext p).2 = [] ∨
      ∃ tail, (splitext p).2 = '.' :: tail ∧ ∀ c ∈ tail, c ≠ '.' ∧ c ≠ '/' := by
  unfold splitext
  cases heq : extScanRev p.reverse with
  | none => exact Or.inl rfl
  | some pr =>
    obtain ⟨t, preR⟩ := pr
    obtain ⟨_, hprops⟩ := extScanRev_eq_some heq
    exact Or.inr ⟨t.reverse, rfl, fun c hc => hprops c (List.mem_reverse.mp hc)⟩

/-- The cleaning pipeline's output never contains a period. -/
theorem nameClean_no_dot {s : List Char} : ∀ c ∈ nameClean s, c ≠ '.' := by
  intro c hc he
  have hgood := (good_iff c).mp (nameClean_good c hc)
  have h46 : ('.' : Char).toNat = 46 := rfl
  rw [he, h46] at hgood
  omega

/-- The cleaning pipeline's output never contains a slash. -/
theorem nameClean_no_slash {s : List Char} : ∀ c ∈ nameClean s, c ≠ '/' := by
  intro c hc he
  have hgood := (good_iff c).mp (nameClean_good c hc)
  have h47 : ('/' : Char).toNat = 47 := rfl
  rw [he, h47] at hgood
  omega

/-!
Claim C7: idempotence of slugification.
-/

/-- Counterexample to C7 as stated: slugification is not idempotent.  For
`!.png` the name part `!` cleans to the empty string, so the first pass
returns `.png`; on the second pass the leading-period rule of `splitext`
classifies `.png` as all name and no extension, and the period is deleted,
giving `png`. -/
theorem clean_filename_not_idempotent :
    clean_filename "!.png".toList = ".png".toList ∧
    clean_filename (clean_filename "!.png".toList) = "png".toList ∧
    clean_filename (clean_filename "!.png".toList) ≠ clean_filename "!.png".toList := by
  decide

/-- C7 amended: slugification is idempotent on every filename whose cleaned
name part is nonempty or whose extension is empty (equivalently, except
when cleaning empties the name part while a nonempty extension remains). -/
theorem clean_filename_idem_of (x : List Char)
    (h : nameClean (splitext x).1 ≠ [] ∨ (splitext x).2 = []) :
    clean_filename (clean_filename x) = clean_filename x := by
  rcases splitext_ext_shape x with he | ⟨tail, he, htail⟩
  · have hx : clean_filename x = nameClean (splitext x).1 := by
      rw [clean_filename, he, List.append_nil]
    rw [hx]
    have hsp : splitext (nameClean (splitext x).1) = (nameClean (splitext x).1, []) :=
      splitext_of_no_dot nameClean_no_dot
    rw [clean_filename, hsp]
    simp only [List.append_nil]
    exact nameClean_idem _
  · have hne : nameClean (splitext x).1 ≠ [] := by
      rcases h with h | h
      · exact h
      · rw [he] at h; exact absurd h (by simp)
    have hx : clean_filename x = nameClean (splitext x).1 ++ '.' :: tail := by
      rw [clean_filename, he]
    rw [hx]
    have hsp : splitext (nameClean (splitext x).1 ++ '.' :: tail)
        = (nameClean (splitext x).1, '.' :: tail) :=
      splitext_append_ext hne nameClean_no_dot nameClean_no_slash htail
    rw [clean_filename, hsp]
    simp only []
    rw [nameClean_idem]

/-- Witness for the amended C7 at a concrete input. -/
theorem clean_filename_idem_of_witness :
    (nameClean (splitext "My Photo.JPG".toList).1 ≠ [] ∨ (splitext "My Photo.JPG".toList).2 = []) ∧
    clean_filename (clean_filename "My Photo.JPG".toList) = clean_filename "My Photo.JPG".toList :=
  ⟨by decide, clean_filename_idem_of "My Photo.JPG".toList (by decide)⟩

/-- Elements of a `takeWhile` prefix satisfy the predicate. -/
theorem mem_takeWhile_pred {α : Type} {p : α → Bool} :
    ∀ {l : List α} {a : α}, a ∈ l.takeWhile p → p a = true := by
  intro l
  induction l with
  | nil => intro a h; simp [List.takeWhile] at h
  | cons c rest ih =>
    intro a h
    rw [List.takeWhile_cons] at h
    by_cases hc : p c = true
    · rw [if_pos hc] at h
      rcases List.mem_cons.mp h with h1 | h1
      · exact h1 ▸ hc
      · exact ih h1
    · rw [if_neg hc] at h
      simp at h

/-- Taking-while distributes over an append whose first part wholly
satisfies the predicate. -/
theorem takeWhile_append_of_all {α : Type} {p : α → Bool} :
    ∀ {a b : List α}, (∀ c ∈ a, p c = true) →
    (a ++ b).takeWhile p = a ++ b.takeWhile p := by
  intro a
  induction a with
  | nil => intro b _; rfl
  | cons c rest ih =>
    intro b h
    rw [List.cons_append, List.takeWhile_cons, if_pos (h c (List.mem_cons_self c rest))]
    rw [ih (fun x hx => h x (List.mem_cons_of_mem c hx))]
    rfl

/-- The head of a nonempty `dropWhile` residue falsifies the predicate. -/
theorem dropWhile_head_not {α : Type} {p : α → Bool} :
    ∀ {l : List α} {a : α} {t : List α}, l.dropWhile p = a :: t → p a = false := by
  intro l
  induction l with
  | nil => intro a t h; simp [List.dropWhile] at h
  | cons c rest ih =>
    intro a t h
    rw [List.dropWhile_cons] at h
    by_cases hc : p c = true
    · rw [if_pos hc] at h
      exact ih h
    · rw [if_neg hc] at h
      obtain ⟨h1, _⟩ := List.cons.injEq _ _ _ _ ▸ h
      exact h1 ▸ Bool.eq_false_iff.mpr hc

/-- Characters of the extension returned by `splitext` occur in the
input. -/
theorem splitext_ext_subset {p : List Char} : ∀ c ∈ (splitext p).2, c ∈ p := by
  unfold splitext
  cases heq : extScanRev p.reverse with
  | none => intro c hc; simp at hc
  | some pr =>
    obtain ⟨t, preR⟩ := pr
    obtain ⟨hdecomp, _⟩ := extScanRev_eq_some heq
    intro c hc
    rw [← List.mem_reverse, hdecomp]
    rcases List.mem_cons.mp hc with h1 | h1
    · exact List.mem_append.mpr (Or.inr (h1 ▸ List.mem_cons_self '.' preR))
    · exact List.mem_append.mpr (Or.inl (List.mem_reverse.mp h1))

/-!
Claim C2: the local file extension computation.
-/

/-- Counterexample to C2 as stated: for `a.png?v=1.2` the code computes
`splitext` on the raw reference first (yielding extension `.2`, from the
period inside the query string) and only then strips at the question mark,
so the extension is `.2` -- not `.png` as the spec's query-first order
would give. -/
theorem pyExt_query_period_counterexample :
    pyExt "a.png?v=1.2".toList = ".2".toList ∧
    specDescribedExt "a.png?v=1.2".toList = ".png".toList ∧
    pyExt "a.png?v=1.2".toList ≠ ".png".toList := by
  decide

/-- C2 amended: for every reference made of a question-mark-free path part
followed by a query part (empty, or starting with the question mark) that
contains neither a period nor a slash, the code's extension computation
agrees with the spec's description (strip the query first, split the
extension, default to `.jpg`). -/
theorem pyExt_matches_spec_on_dotless_query (p q : List Char)
    (hp : ∀ c ∈ p, c ≠ '?')
    (hq : ∀ c ∈ q, c ≠ '.' ∧ c ≠ '/')
    (hq0 : q = [] ∨ ∃ qt, q = '?' :: qt) :
    pyExt (p ++ q) = specDescribedExt (p ++ q) := by
  have htkq : q.takeWhile (fun c => c ≠ '?') = [] := by
    rcases hq0 with h | ⟨qt, h⟩ <;> subst h
    · rfl
    · rw [List.takeWhile_cons]
      simp
  have htk : (p ++ q).takeWhile (fun c => c ≠ '?') = p := by
    rw [takeWhile_append_of_all (fun c hc => decide_eq_true (hp c hc)), htkq, List.append_nil]
  have hqfree : ∀ c ∈ q.reverse, c ≠ '.' ∧ c ≠ '/' := fun c hc => hq c (List.mem_reverse.mp hc)
  have hrev : (p ++ q).reverse = q.reverse ++ p.reverse := by simp
  cases heq : extScanRev p.reverse with
  | none =>
    have h1 : splitext (p ++ q) = (p ++ q, []) := by
      unfold splitext
      rw [hrev, extScanRev_append hqfree, heq]
    have h2 : splitext p = (p, []) := by
      unfold splitext
      rw [heq]
    simp only [pyExt, specDescribedExt]
    rw [h1, htk, h2]
    simp
  | some pr =>
    obtain ⟨t, preR⟩ := pr
    obtain ⟨hdecomp, _⟩ := extScanRev_eq_some heq
    have h1 : splitext (p ++ q) = (preR.reverse, '.' :: (q.reverse ++ t).reverse) := by
      unfold splitext
      rw [hrev, extScanRev_append hqfree, heq]
    have h2 : splitext p = (preR.reverse, '.' :: t.reverse) := by
      unfold splitext
      rw [heq]
    have htrev : ∀ c ∈ t.reverse, (fun c => decide (c ≠ '?')) c = true := by
      intro c hc
      apply decide_eq_true
      apply hp
      rw [← List.mem_reverse, hdecomp]
      exact List.mem_append.mpr (Or.inl (List.mem_reverse.mp hc))
    have hrr : ('.' :: (q.reverse ++ t).reverse).takeWhile (fun c => c ≠ '?') = '.' :: t.reverse := by
      rw [List.takeWhile_cons]
      rw [List.reverse_append, List.reverse_reverse]
      rw [takeWhile_append_of_all htrev, htkq, List.append_nil]
      simp
    simp only [pyExt, specDescribedExt]
    rw [h1, htk, h2]
    simp only []
    rw [hrr]

/-- Witness for the amended C2 at the spec's own example with a period-free
query: `a.png?v=1`. -/
theorem pyExt_matches_spec_witness :
    pyExt ("a.png".toList ++ "?v=1".toList) = specDescribedExt ("a.png".toList ++ "?v=1".toList) ∧
    pyExt "a.png?v=1".toList = ".png".toList :=
  ⟨pyExt_matches_spec_on_dotless_query "a.png".toList "?v=1".toList (by decide) (by decide)
      (Or.inr ⟨"v=1".toList, by decide⟩),
    by decide⟩

/-!
Claim C1: ledger rows versus fetch failures.
-/

/-- Validity of a source under the skip test of lines 121-126: the bool
tested by the code is the negation of `hasValidSrc`. -/
theorem hasValidSrc_of_img {c : Container} {src : List Char}
    (himg : c.img = some (some src)) :
    hasValidSrc c = (!src.isEmpty && !"data:".toList.isPrefixOf src) := by
  rw [hasValidSrc, himg]

/-- The per-container loop emits exactly one CSV row per container with a
valid (non-empty, non-`data:`) image source, regardless of every fetch
environment. -/
theorem processContainers_rows_length (u p sf bd : List Char)
    (j : List Char → List Char → List Char) :
    ∀ (cs : List (Container × FetchEnv)) (counter : Nat),
    ((processContainers u p sf bd j counter cs).1).length
      = (cs.filter (fun ce => hasValidSrc ce.1)).length := by
  intro cs
  induction cs with
  | nil => intro counter; rfl
  | cons ce rest ih =>
    intro counter
    obtain ⟨c, env⟩ := ce
    rw [List.filter_cons]
    cases himg : c.img with
    | none =>
      have hval : hasValidSrc c = false := by rw [hasValidSrc, himg]
      simp only [processContainers, himg, hval, Bool.false_eq_true, if_false]
      exact ih _
    | some srcOpt =>
      cases srcOpt with
      | none =>
        have hval : hasValidSrc c = false := by rw [hasValidSrc, himg]
        simp only [processContainers, himg, hval, Bool.false_eq_true, if_false]
        exact ih _
      | some src =>
        by_cases hsrc : (src.isEmpty || "data:".toList.isPrefixOf src) = true
        · have hval : hasValidSrc c = false := by
            rw [hasValidSrc_of_img himg]
            rcases Bool.or_eq_true_iff.mp hsrc with h | h
            · simp only [h, Bool.not_true, Bool.false_and]
            · simp only [h, Bool.not_true, Bool.and_false]
          simp only [processContainers, himg, hval, Bool.false_eq_true, if_false]
          rw [if_pos hsrc]
          exact ih _
        · have hsrc2 : (src.isEmpty || "data:".toList.isPrefixOf src) = false :=
            Bool.eq_false_iff.mpr hsrc
          have hval : hasValidSrc c = true := by
            rw [hasValidSrc_of_img himg]
            have h1 := Bool.or_eq_false_iff.mp hsrc2
            simp only [h1.1, h1.2, Bool.not_false, Bool.and_self]
          simp only [processContainers, himg, hval, if_true]
          rw [if_neg hsrc]
          simp only [List.length_cons]
          rw [ih _]

/-- The fetch-or-replace primitive never removes existing errors entries. -/
theorem download_errors_mono (u fp : List Char) (env : FetchEnv) (log : LogData)
    {x : List Char × List Char} (hx : x ∈ log.errors) :
    x ∈ (download_or_replace_image u fp env log).log.errors := by
  obtain ⟨lf, hr, gr⟩ := env
  cases lf with
  | none =>
    cases gr with
    | error e => exact List.mem_append_left _ hx
    | ok body => exact hx
  | some content =>
    cases hr with
    | error e => exact List.mem_append_left _ hx
    | ok hdr =>
      by_cases hsz : content.length = hdr.getD 0
      · simp only [download_or_replace_image, hsz, if_true]
        exact hx
      · simp only [download_or_replace_image, hsz, if_false]
        cases gr with
        | error e =>
          simp only [addErr, addRepl]
          exact List.mem_append_left _ hx
        | ok body =>
          simp only [addDl, addRepl]
          exact hx

/-- A failing fetch appends an errors entry for its image URL. -/
theorem download_error_entry (u fp : List Char) (env : FetchEnv) (log : LogData)
    (hf : fetchFails env = true) :
    ∃ msg, (u, msg) ∈ (download_or_replace_image u fp env log).log.errors := by
  obtain ⟨lf, hr, gr⟩ := env
  cases lf with
  | none =>
    cases gr with
    | error e =>
      exact ⟨e, List.mem_append_right _ (List.mem_singleton.mpr rfl)⟩
    | ok body => simp [fetchFails] at hf
  | some content =>
    cases hr with
    | error e =>
      exact ⟨e, List.mem_append_right _ (List.mem_singleton.mpr rfl)⟩
    | ok hdr =>
      by_cases hsz : content.length = hdr.getD 0
      · simp [fetchFails, hsz] at hf
      · cases gr with
        | error e =>
          refine ⟨e, ?_⟩
          simp only [download_or_replace_image, hsz, if_false, addErr, addRepl]
          exact List.mem_append_right _ (List.mem_singleton.mpr rfl)
        | ok body => simp [fetchFails, hsz] at hf

/-- Running tasks never removes errors entries. -/
theorem runTasks_errors_mono : ∀ (ts : List DlTask) (log : LogData)
    {x : List Char × List Char}, x ∈ log.errors → x ∈ (runTasks ts log).errors := by
  intro ts
  induction ts with
  | nil => intro log x hx; exact hx
  | cons t rest ih =>
    intro log x hx
    exact ih _ (download_errors_mono t.imageUrl t.filepath t.env log hx)

/-- Every task with a failing fetch environment leaves an errors entry for
its image URL after the task list runs. -/
theorem runTasks_error_of_task : ∀ (ts : List DlTask) (log : LogData) (t : DlTask),
    t ∈ ts → fetchFails t.env = true →
    ∃ msg, (t.imageUrl, msg) ∈ (runTasks ts log).errors := by
  intro ts
  induction ts with
  | nil => intro log t ht; exact absurd ht (List.not_mem_nil t)
  | cons t0 rest ih =>
    intro log t ht hf
    rcases List.mem_cons.mp ht with h1 | h1
    · subst h1
      obtain ⟨msg, hmsg⟩ := download_error_entry t.imageUrl t.filepath t.env log hf
      exact ⟨msg, runTasks_errors_mono rest _ hmsg⟩
    · exact ih _ t h1 hf

/-- Every valid-source container contributes a download task whose image
URL is the resolved source. -/
theorem processContainers_task_mem (u p sf bd : List Char)
    (j : List Char → List Char → List Char) :
    ∀ (cs : List (Container × FetchEnv)) (counter : Nat) (c : Container) (env : FetchEnv),
    (c, env) ∈ cs → hasValidSrc c = true →
    ∃ fp, (⟨j u (srcOf c), fp, env⟩ : DlTask) ∈ (processContainers u p sf bd j counter cs).2.2 := by
  intro cs
  induction cs with
  | nil => intro counter c env hmem; exact absurd hmem (List.not_mem_nil _)
  | cons ce rest ih =>
    intro counter c env hmem hval
    obtain ⟨c0, env0⟩ := ce
    rcases List.mem_cons.mp hmem with h1 | h1
    · obtain ⟨hc, he⟩ := Prod.mk.injEq _ _ _ _ ▸ h1
      subst hc
      subst he
      cases himg : c.img with
      | none => rw [hasValidSrc, himg] at hval; exact absurd hval (by simp)
      | some srcOpt =>
        cases srcOpt with
        | none => rw [hasValidSrc, himg] at hval; exact absurd hval (by simp)
        | some src =>
          have hsrc2 : (src.isEmpty || "data:".toList.isPrefixOf src) = false := by
            rw [hasValidSrc_of_img himg] at hval
            have h1 := Bool.and_eq_true_iff.mp hval
            rcases h1 with ⟨ha, hb⟩
            rw [Bool.not_eq_true'] at ha hb
            rw [ha, hb]
            rfl
          have hsrcof : srcOf c = src := by rw [srcOf, himg]
          simp only [processContainers, himg]
          rw [if_neg (Bool.eq_false_iff.mp hsrc2)]
          rw [hsrcof]
          exact ⟨_, List.mem_cons_self _ _⟩
    · -- membership in the tail is preserved in every branch
      cases himg : c0.img with
      | none =>
        simp only [processContainers, himg]
        exact ih _ c env h1 hval
      | some srcOpt =>
        cases srcOpt with
        | none =>
          simp only [processContainers, himg]
          exact ih _ c env h1 hval
        | some src =>
          by_cases hsrc : (src.isEmpty || "data:".toList.isPrefixOf src) = true
          · simp only [processContainers, himg]
            rw [if_pos hsrc]
            exact ih _ c env h1 hval
          · simp only [processContainers, himg]
            rw [if_neg hsrc]
            obtain ⟨fp, hfp⟩ := ih (match c0.projectName with
              | none => counter + 1
              | some _ => counter) c env h1 hval
            exact ⟨fp, List.mem_cons_of_mem _ hfp⟩

/-- C1 amended: on a successfully fetched page, the CSV ledger receives
exactly one row per container with a valid image source -- including those
whose metadata or content fetch later fails at the transport level; each
such failing container is logged under errors, and harvesting continues
(the containers after a failing one still contribute their rows and
tasks). -/
theorem scrape_images_row_despite_fetch_error (urlStr urlPath basedir : List Char)
    (j : List Char → List Char → List Char)
    (containers : List (Container × FetchEnv)) (log : LogData) :
    ((scrape_images urlStr urlPath basedir j (Except.ok containers) log).rows).length
      = (containers.filter (fun ce => hasValidSrc ce.1)).length ∧
    (∀ c env, (c, env) ∈ containers → hasValidSrc c = true → fetchFails env = true →
      ∃ msg, (j urlStr (srcOf c), msg)
        ∈ (scrape_images urlStr urlPath basedir j (Except.ok containers) log).log.errors) := by
  constructor
  · exact processContainers_rows_length urlStr urlPath (subfolderName urlPath) basedir j containers 1
  · intro c env hmem hval hf
    obtain ⟨fp, hfp⟩ := processContainers_task_mem urlStr urlPath (subfolderName urlPath)
      basedir j containers 1 c env hmem hval
    obtain ⟨msg, hmsg⟩ := runTasks_error_of_task _ _ _ hfp hf
    exact ⟨msg, hmsg⟩

/-- Counterexample to C1 as stated: a page with two valid containers whose
first image fetch fails at the transport level.  The failure is logged in
errors, yet the failed container still contributes its CSV row -- the
ledger has a row per attempted image, not per successfully attempted
image. -/
theorem scrape_images_failed_fetch_counterexample :
    fetchFails ⟨none, Except.ok none, Except.error "boom".toList⟩ = true ∧
    (scrape_images "https://s/p".toList "/p".toList "b".toList (fun _ s => s)
      (Except.ok [(⟨some "Name A".toList, some (some "a.png".toList)⟩,
        ⟨none, Except.ok none, Except.error "boom".toList⟩),
        (⟨some "Name B".toList, some (some "b.png".toList)⟩,
        ⟨none, Except.ok none, Except.ok [1]⟩)]) emptyLog).log.errors
      = [("a.png".toList, "boom".toList)] ∧
    (scrape_images "https://s/p".toList "/p".toList "b".toList (fun _ s => s)
      (Except.ok [(⟨some "Name A".toList, some (some "a.png".toList)⟩,
        ⟨none, Except.ok none, Except.error "boom".toList⟩),
        (⟨some "Name B".toList, some (some "b.png".toList)⟩,
        ⟨none, Except.ok none, Except.ok [1]⟩)]) emptyLog).rows
      = [⟨"a.png".toList, "/p".toList, "name-a.png".toList, "p".toList⟩,
         ⟨"b.png".toList, "/p".toList, "name-b.png".toList, "p".toList⟩] := by
  decide

/-- Witness for the amended C1 at the same concrete page. -/
theorem scrape_images_row_despite_fetch_error_witness :
    hasValidSrc ⟨some "Name A".toList, some (some "a.png".toList)⟩ = true ∧
    fetchFails ⟨none, Except.ok none, Except.error "boom".toList⟩ = true ∧
    ∃ msg, ("a.png".toList, msg) ∈ (scrape_images "https://s/p".toList "/p".toList "b".toList
      (fun _ s => s) (Except.ok [(⟨some "Name A".toList, some (some "a.png".toList)⟩,
        ⟨none, Except.ok none, Except.error "boom".toList⟩),
        (⟨some "Name B".toList, some (some "b.png".toList)⟩,
        ⟨none, Except.ok none, Except.ok [1]⟩)]) emptyLog).log.errors :=
  ⟨by decide, by decide,
    (scrape_images_row_despite_fetch_error "https://s/p".toList "/p".toList "b".toList
      (fun _ s => s) [(⟨some "Name A".toList, some (some "a.png".toList)⟩,
        ⟨none, Except.ok none, Except.error "boom".toList⟩),
        (⟨some "Name B".toList, some (some "b.png".toList)⟩,
        ⟨none, Except.ok none, Except.ok [1]⟩)] emptyLog).2
      ⟨some "Name A".toList, some (some "a.png".toList)⟩
      ⟨none, Except.ok none, Except.error "boom".toList⟩
      (by decide) (by decide) (by decide)⟩

/-!
Claim C3: membership invariant of the crawler's result set.
-/

/-- Netloc invariant of the crawler loop: when every URL already in the
sitemap or still to visit shares the seed's netloc, so does every URL of
the final sitemap. -/
theorem create_sitemap_netloc_aux {α : Type} [DecidableEq α] (netloc : α → String)
    (fetch : α → Option (List α)) (chooser : (s : Finset α) → s.Nonempty → α)
    (hch : ∀ (s : Finset α) (h : s.Nonempty), chooser s h ∈ s) (base : α) :
    ∀ (fuel : Nat) (sitemap toVisit visited : Finset α) (errs : List α)
      (r : Finset α) (e : List α),
    (∀ x ∈ sitemap, netloc x = netloc base) →
    (∀ x ∈ toVisit, netloc x = netloc base) →
    create_sitemap netloc fetch chooser base fuel sitemap toVisit visited errs = some (r, e) →
    ∀ x ∈ r, netloc x = netloc base := by
  intro fuel
  induction fuel with
  | zero =>
    intro sm tv vis errs r e _ _ hcall
    exact absurd hcall (by simp [create_sitemap])
  | succ fuel ih =>
    intro sm tv vis errs r e hsm htv hcall
    simp only [create_sitemap] at hcall
    by_cases h : 0 < tv.card
    · rw [dif_pos h] at hcall
      have hu : chooser tv (Finset.card_pos.mp h) ∈ tv := hch _ _
      by_cases hv : chooser tv (Finset.card_pos.mp h) ∈ vis
      · rw [if_pos hv] at hcall
        exact ih _ _ _ _ _ _ hsm (fun x hx => htv x (Finset.mem_of_mem_erase hx)) hcall
      · rw [if_neg hv] at hcall
        cases hf : fetch (chooser tv (Finset.card_pos.mp h)) with
        | none =>
          rw [hf] at hcall
          exact ih _ _ _ _ _ _ hsm (fun x hx => htv x (Finset.mem_of_mem_erase hx)) hcall
        | some hrefs =>
          rw [hf] at hcall
          refine ih _ _ _ _ _ _ ?_ ?_ hcall
          · intro x hx
            rcases Finset.mem_insert.mp hx with h1 | h1
            · exact h1 ▸ htv _ hu
            · exact hsm x h1
          · intro x hx
            rcases Finset.mem_union.mp hx with h1 | h1
            · exact htv x (Finset.mem_of_mem_erase h1)
            · rw [List.mem_toFinset, List.mem_filter] at h1
              exact (of_decide_eq_true h1.2).1
    · rw [dif_neg h] at hcall
      simp only [Option.some.injEq, Prod.mk.injEq] at hcall
      intro x hx
      exact hsm x (hcall.1 ▸ hx)

/-- C3 amended: every URL of the crawler's result set shares the seed's
netloc (host/port) -- or is the seed, whose netloc trivially matches.  The
result is a set, so it has no duplicates.  The URL scheme plays no role:
the code never compares it. -/
theorem create_sitemap_netloc_invariant {α : Type} [DecidableEq α] (netloc : α → String)
    (fetch : α → Option (List α)) (chooser : (s : Finset α) → s.Nonempty → α)
    (hch : ∀ (s : Finset α) (h : s.Nonempty), chooser s h ∈ s) (base : α)
    (fuel : Nat) (r : Finset α) (e : List α)
    (hrun : create_sitemap netloc fetch chooser base fuel ∅ {base} ∅ [] = some (r, e)) :
    ∀ x ∈ r, netloc x = netloc base := by
  refine create_sitemap_netloc_aux netloc fetch chooser hch base fuel ∅ {base} ∅ [] r e
    (by intro x hx; exact absurd hx (Finset.not_mem_empty x)) ?_ hrun
  intro x hx
  rw [Finset.mem_singleton] at hx
  rw [hx]

/-- Witness for the amended C3: the invariant applied to the concrete
two-page crawl (URL 1 is a member of the result). -/
theorem create_sitemap_netloc_invariant_witness :
    twoPageNetloc 1 = twoPageNetloc 0 :=
  create_sitemap_netloc_invariant twoPageNetloc twoPageFetch minChooser
    (fun s h => Finset.min'_mem s h) 0 10 {1, 0} [] (by decide) 1 (by decide)

/-- Counterexample to C3 as stated: crawling the two-page web from the
`https` seed returns a set containing URL 1, whose scheme `http` differs
from the seed's scheme `https` and which is not the seed -- the code
compares netlocs only, never schemes. -/
theorem create_sitemap_scheme_counterexample :
    create_sitemap twoPageNetloc twoPageFetch minChooser 0 10 ∅ {0} ∅ [] = some ({1, 0}, []) ∧
    (1 : Fin 2) ∈ ({1, 0} : Finset (Fin 2)) ∧
    twoPageScheme 1 ≠ twoPageScheme 0 ∧ (1 : Fin 2) ≠ 0 := by
  decide

/-!
Claim C8: termination and result of the crawler on all-success graphs.
-/

/-- Escape lemma: when every link out of `V` lands in `V` or `T`, any
reachability path starting inside `V` either stays in `V` or passes through
some element of `T`. -/
theorem reach_escape {α : Type} (links : α → List α) {V T : Finset α}
    (hclosed : ∀ u ∈ V, ∀ v ∈ links u, v ∈ V ∨ v ∈ T) {x y : α}
    (hxy : Relation.ReflTransGen (fun a b => b ∈ links a) x y) (hx : x ∈ V) :
    y ∈ V ∨ ∃ t ∈ T, Relation.ReflTransGen (fun a b => b ∈ links a) t y := by
  induction hxy using Relation.ReflTransGen.head_induction_on with
  | refl => exact Or.inl hx
  | head hab hbc ih =>
    rcases hclosed _ hx _ hab with h1 | h1
    · exact ih h1
    · exact Or.inr ⟨_, h1, hbc⟩

/-- Main invariant of the crawler loop when every fetch succeeds: started
from a state where the sitemap equals the visited set and every link out of
a visited page is visited or queued, the loop terminates within the fuel
bound and returns the visited set together with everything reachable from
the queue. -/
theorem crawl_spec {α : Type} [DecidableEq α] [Fintype α] (netloc : α → String)
    (links : α → List α) (chooser : (s : Finset α) → s.Nonempty → α)
    (hch : ∀ (s : Finset α) (h : s.Nonempty), chooser s h ∈ s) (base : α)
    (hso : ∀ u, ∀ v ∈ links u, netloc v = netloc base) :
    ∀ (fuel : Nat) (toVisit visited : Finset α) (errs : List α),
    (Fintype.card α - visited.card) * (Fintype.card α + 1) + toVisit.card < fuel →
    (∀ u ∈ visited, ∀ v ∈ links u, v ∈ visited ∨ v ∈ toVisit) →
    ∃ r, create_sitemap netloc (fun u => some (links u)) chooser base fuel
        visited toVisit visited errs = some (r, errs) ∧
      ∀ x, x ∈ r ↔ (x ∈ visited ∨
        ∃ t ∈ toVisit, Relation.ReflTransGen (fun a b => b ∈ links a) t x) := by
  intro fuel
  induction fuel with
  | zero =>
    intro tv vis errs hm _
    exact absurd hm (Nat.not_lt_zero _)
  | succ fuel ih =>
    intro tv vis errs hm hclosed
    simp only [create_sitemap]
    by_cases h : 0 < tv.card
    · rw [dif_pos h]
      have hu : chooser tv (Finset.card_pos.mp h) ∈ tv := hch _ _
      by_cases hv : chooser tv (Finset.card_pos.mp h) ∈ vis
      · rw [if_pos hv]
        have hm' : (Fintype.card α - vis.card) * (Fintype.card α + 1)
            + (tv.erase (chooser tv (Finset.card_pos.mp h))).card < fuel := by
          have he := Finset.card_erase_of_mem hu
          omega
        have hclosed' : ∀ u ∈ vis, ∀ v ∈ links u,
            v ∈ vis ∨ v ∈ tv.erase (chooser tv (Finset.card_pos.mp h)) := by
          intro w hw v hv2
          rcases hclosed w hw v hv2 with h1 | h1
          · exact Or.inl h1
          · by_cases hveq : v = chooser tv (Finset.card_pos.mp h)
            · exact Or.inl (hveq ▸ hv)
            · exact Or.inr (Finset.mem_erase.mpr ⟨hveq, h1⟩)
        obtain ⟨r, hr, hchar⟩ := ih (tv.erase (chooser tv (Finset.card_pos.mp h))) vis errs hm' hclosed'
        refine ⟨r, hr, ?_⟩
        intro x
        rw [hchar x]
        constructor
        · rintro (h1 | ⟨t, ht, hpath⟩)
          · exact Or.inl h1
          · exact Or.inr ⟨t, Finset.mem_of_mem_erase ht, hpath⟩
        · rintro (h1 | ⟨t, ht, hpath⟩)
          · exact Or.inl h1
          · by_cases hteq : t = chooser tv (Finset.card_pos.mp h)
            · subst hteq
              exact reach_escape links hclosed' hpath hv
            · exact Or.inr ⟨t, Finset.mem_erase.mpr ⟨hteq, ht⟩, hpath⟩
      · rw [if_neg hv]
        have hcard : vis.card < Fintype.card α := by
          have hle := Finset.card_le_univ (insert (chooser tv (Finset.card_pos.mp h)) vis)
          rw [Finset.card_insert_of_not_mem hv] at hle
          omega
        have hm' : (Fintype.card α - (insert (chooser tv (Finset.card_pos.mp h)) vis).card)
            * (Fintype.card α + 1)
            + ((tv.erase (chooser tv (Finset.card_pos.mp h))
                ∪ ((links (chooser tv (Finset.card_pos.mp h))).filter (fun v =>
                  decide (netloc v = netloc base
                    ∧ v ∉ insert (chooser tv (Finset.card_pos.mp h)) vis
                    ∧ v ∉ tv.erase (chooser tv (Finset.card_pos.mp h))
                    ∧ v ∉ insert (chooser tv (Finset.card_pos.mp h)) vis))).toFinset)).card
            < fuel := by
          rw [Finset.card_insert_of_not_mem hv]
          have hsplit : (Fintype.card α - vis.card)
              = (Fintype.card α - (vis.card + 1)) + 1 := by omega
          rw [hsplit, Nat.succ_mul] at hm
          have htvb := Finset.card_le_univ (tv.erase (chooser tv (Finset.card_pos.mp h))
            ∪ ((links (chooser tv (Finset.card_pos.mp h))).filter (fun v =>
              decide (netloc v = netloc base
                ∧ v ∉ insert (chooser tv (Finset.card_pos.mp h)) vis
                ∧ v ∉ tv.erase (chooser tv (Finset.card_pos.mp h))
                ∧ v ∉ insert (chooser tv (Finset.card_pos.mp h)) vis))).toFinset)
          omega
        have hclosed' : ∀ u ∈ insert (chooser tv (Finset.card_pos.mp h)) vis, ∀ v ∈ links u,
            v ∈ insert (chooser tv (Finset.card_pos.mp h)) vis
            ∨ v ∈ tv.erase (chooser tv (Finset.card_pos.mp h))
                ∪ ((links (chooser tv (Finset.card_pos.mp h))).filter (fun v =>
                  decide (netloc v = netloc base
                    ∧ v ∉ insert (chooser tv (Finset.card_pos.mp h)) vis
                    ∧ v ∉ tv.erase (chooser tv (Finset.card_pos.mp h))
                    ∧ v ∉ insert (chooser tv (Finset.card_pos.mp h)) vis))).toFinset := by
          intro w hw v hv2
          rcases Finset.mem_insert.mp hw with hw1 | hw1
          · by_cases hin : v ∈ insert (chooser tv (Finset.card_pos.mp h)) vis
            · exact Or.inl hin
            · by_cases her : v ∈ tv.erase (chooser tv (Finset.card_pos.mp h))
              · exact Or.inr (Finset.mem_union_left _ her)
              · refine Or.inr (Finset.mem_union_right _ ?_)
                rw [List.mem_toFinset, List.mem_filter]
                refine ⟨hw1 ▸ hv2, decide_eq_true ⟨hso _ v (hw1 ▸ hv2), hin, her, hin⟩⟩
          · rcases hclosed w hw1 v hv2 with h1 | h1
            · exact Or.inl (Finset.mem_insert_of_mem h1)
            · by_cases hveq : v = chooser tv (Finset.card_pos.mp h)
              · exact Or.inl (hveq ▸ Finset.mem_insert_self _ _)
              · exact Or.inr (Finset.mem_union_left _ (Finset.mem_erase.mpr ⟨hveq, h1⟩))
        obtain ⟨r, hr, hchar⟩ := ih (tv.erase (chooser tv (Finset.card_pos.mp h))
            ∪ ((links (chooser tv (Finset.card_pos.mp h))).filter (fun v =>
              decide (netloc v = netloc base
                ∧ v ∉ insert (chooser tv (Finset.card_pos.mp h)) vis
                ∧ v ∉ tv.erase (chooser tv (Finset.card_pos.mp h))
                ∧ v ∉ insert (chooser tv (Finset.card_pos.mp h)) vis))).toFinset)
          (insert (chooser tv (Finset.card_pos.mp h)) vis) errs hm' hclosed'
        refine ⟨r, hr, ?_⟩
        intro x
        rw [hchar x]
        constructor
        · rintro (h1 | ⟨t, ht, hpath⟩)
          · rcases Finset.mem_insert.mp h1 with h2 | h2
            · exact Or.inr ⟨chooser tv (Finset.card_pos.mp h), hu, h2 ▸ Relation.ReflTransGen.refl⟩
            · exact Or.inl h2
          · rcases Finset.mem_union.mp ht with h2 | h2
            · exact Or.inr ⟨t, Finset.mem_of_mem_erase h2, hpath⟩
            · rw [List.mem_toFinset, List.mem_filter] at h2
              exact Or.inr ⟨chooser tv (Finset.card_pos.mp h), hu,
                Relation.ReflTransGen.head h2.1 hpath⟩
        · rintro (h1 | ⟨t, ht, hpath⟩)
          · exact Or.inl (Finset.mem_insert_of_mem h1)
          · by_cases hteq : t = chooser tv (Finset.card_pos.mp h)
            · subst hteq
              exact reach_escape links hclosed' hpath (Finset.mem_insert_self _ _)
            · exact Or.inr ⟨t, Finset.mem_union_left _ (Finset.mem_erase.mpr ⟨hteq, ht⟩), hpath⟩
    · rw [dif_neg h]
      have htv0 : tv = ∅ := Finset.card_eq_zero.mp (by omega)
      refine ⟨vis, rfl, ?_⟩
      intro x
      constructor
      · intro hx
        exact Or.inl hx
      · rintro (hx | ⟨t, ht, _⟩)
        · exact hx
        · rw [htv0] at ht
          exact absurd ht (Finset.not_mem_empty t)

/-- C8: for every finite all-same-origin link graph whose pages all fetch
successfully, and for every frontier-visitation order (every chooser), the
crawler terminates within `(card + 1)^2` loop iterations and returns
exactly the set of pages reachable from the seed. -/
theorem create_sitemap_terminates_with_reachable_set {α : Type} [DecidableEq α] [Fintype α]
    (netloc : α → String) (links : α → List α)
    (chooser : (s : Finset α) → s.Nonempty → α)
    (hch : ∀ (s : Finset α) (h : s.Nonempty), chooser s h ∈ s) (base : α)
    (hso : ∀ u, ∀ v ∈ links u, netloc v = netloc base) :
    ∃ r, create_sitemap netloc (fun u => some (links u)) chooser base
        ((Fintype.card α + 1) * (Fintype.card α + 1)) ∅ {base} ∅ [] = some (r, []) ∧
      ∀ x, x ∈ r ↔ Relation.ReflTransGen (fun a b => b ∈ links a) base x := by
  have hm : (Fintype.card α - (∅ : Finset α).card) * (Fintype.card α + 1)
      + ({base} : Finset α).card < (Fintype.card α + 1) * (Fintype.card α + 1) := by
    simp only [Finset.card_empty, Nat.sub_zero, Finset.card_singleton]
    have hpos : 0 < Fintype.card α := Fintype.card_pos_iff.mpr ⟨base⟩
    rw [Nat.succ_mul]
    omega
  obtain ⟨r, hr, hchar⟩ := crawl_spec netloc links chooser hch base hso
    ((Fintype.card α + 1) * (Fintype.card α + 1)) {base} ∅ [] hm
    (fun u hu => absurd hu (Finset.not_mem_empty u))
  refine ⟨r, hr, ?_⟩
  intro x
  rw [hchar x]
  constructor
  · rintro (hx | ⟨t, ht, hp⟩)
    · exact absurd hx (Finset.not_mem_empty x)
    · rw [Finset.mem_singleton] at ht
      exact ht ▸ hp
  · intro hp
    exact Or.inr ⟨base, Finset.mem_singleton_self base, hp⟩

/-- Witness for C8: the 4-page graph A→B,C; B→D; C→D; D→ crawled with the
minimum-element chooser terminates and returns exactly {A, B, C, D}. -/
theorem create_sitemap_terminates_witness :
    (∃ r, create_sitemap (fun _ => "h") (fun u => some (fourPageLinks u)) minChooser 0
        ((Fintype.card (Fin 4) + 1) * (Fintype.card (Fin 4) + 1)) ∅ {0} ∅ [] = some (r, []) ∧
      ∀ x, x ∈ r ↔ Relation.ReflTransGen (fun a b => b ∈ fourPageLinks a) 0 x) ∧
    create_sitemap (fun _ => "h") (fun u => some (fourPageLinks u)) minChooser 0
      ((Fintype.card (Fin 4) + 1) * (Fintype.card (Fin 4) + 1)) ∅ {0} ∅ [] = some ({3, 2, 1, 0}, []) :=
  ⟨create_sitemap_terminates_with_reachable_set (fun _ => "h") fourPageLinks minChooser
      (fun s h => Finset.min'_mem s h) 0 (by decide), by decide⟩
